import Mathlib

/-!
Shallow embedding of the loading-cache library (Go) and proofs about its
specified behaviour.  Instants are modelled as `Int` (Go `time.Time` with
`Before` as strict `<`), Go maps as functions into `Option`, Go slices as
`List`, and fallible results as `Except`.
-/

namespace LoadingCache

/-! ## Data model (`Entry`, `CacheEntry` from the library root package) -/

/-- `Entry[K, V]`: a key/value pair. -/
structure Entry (K V : Type) where
  key : K
  value : V
  deriving DecidableEq, Repr

/-- `CacheEntry[K, V]`: an `Entry` plus `ExpiresAt` and the `NegativeCache` flag. -/
structure CacheEntry (K V : Type) where
  entry : Entry K V
  expiresAt : Int
  negativeCache : Bool
  deriving DecidableEq, Repr

/-! ## internal/iterutil

`Uniq`, `Concat` and `Intersection` over materialised sequences.  A Go
iterator consumed by `slices.Collect` never breaks early, so each
combinator is embedded as a plain list function with the same
element-visit order and the same `seen` bookkeeping. -/

/-- Loop of `iterutil.Uniq`: the `seen` set is threaded through the traversal;
an element is yielded the first time it is encountered. -/
def uniqGo {α : Type} [DecidableEq α] (seen : List α) : List α → List α
  | [] => []
  | v :: rest =>
    if v ∈ seen then uniqGo seen rest
    else v :: uniqGo (v :: seen) rest

/-- `iterutil.Uniq`: yields the distinct values of the input in first-occurrence order. -/
def Uniq {α : Type} [DecidableEq α] (l : List α) : List α := uniqGo [] l

/-- The `seen` set accumulated by `iterutil.Uniq` after consuming a prefix. -/
def uniqSeen {α : Type} [DecidableEq α] (seen : List α) : List α → List α
  | [] => seen
  | v :: rest =>
    if v ∈ seen then uniqSeen seen rest
    else uniqSeen (v :: seen) rest

/-- Loop of `iterutil.Intersection`: `seen` counts the occurrences of every
value over all input sequences so far; a value is yielded at the moment its
count reaches the number of input sequences. -/
def intersectionGo {α : Type} [DecidableEq α] (numIters : Nat) (seen : α → Nat) :
    List α → List α
  | [] => []
  | v :: rest =>
    let c := seen v + 1
    let seen' : α → Nat := fun x => if x = v then c else seen x
    if c = numIters then v :: intersectionGo numIters seen' rest
    else intersectionGo numIters seen' rest

/-- `iterutil.Intersection`: visits the input sequences in order (their
concatenation) with the occurrence-counting loop. -/
def Intersection {α : Type} [DecidableEq α] (iters : List (List α)) : List α :=
  intersectionGo iters.length (fun _ => 0) iters.flatten

/-! ## Composite index combinators (`index.OrIndex`, `index.AndIndex`)

`Get` on each combinator first queries the two underlying indexes; the
combinator's result is a pure function of the two returned primary-key
lists, which is what is embedded here. -/

/-- `OrIndex.Get` after both underlying lookups succeeded:
`slices.Collect(iterutil.Uniq(iterutil.Concat(rightPks, leftPks)))`. -/
def OrIndexGet {PK : Type} [DecidableEq PK] (leftPks rightPks : List PK) : List PK :=
  Uniq (rightPks ++ leftPks)

/-- `AndIndex.Get` after both underlying lookups succeeded:
`slices.Collect(iterutil.Intersection(rightPks, leftPks))`. -/
def AndIndexGet {PK : Type} [DecidableEq PK] (leftPks rightPks : List PK) : List PK :=
  Intersection [rightPks, leftPks]

/-! ## RandomizedClock

`RandomizedClock.Now` compares one fresh draw of `rand.Float64()` (a value
in `[0,1)`) against `Percentage`; no float arithmetic is performed, only an
order comparison, so the draw and the percentage are modelled as rationals
and the base time as an instant. -/

/-- `RandomizedClock.Now` as a function of the base clock reading and the draw:
if the draw is strictly greater than `Percentage` the base time is returned,
otherwise the base time plus `Duration`. -/
def randomizedClockNow (baseNow : Int) (duration : Int) (percentage draw : ℚ) : Int :=
  if draw > percentage then baseNow else baseNow + duration

/-! ## memstorage: sharded and single-bucket in-memory storage

A bucket's Go map is a function `K → Option (CacheEntry K V)`.  The clock
is passed as the instant `now` it would read; the cloner and the Go zero
value of `V` live in the options carried by the storage value. -/

/-- `cloneCacheEntry`: negative entries keep only key, expiry and flag with the
zero value; others get `cloner.CloneValue` applied to the value. -/
def cloneCacheEntry {K V : Type} (cloner : V → V) (zeroV : V) (v : CacheEntry K V) :
    CacheEntry K V :=
  if v.negativeCache then
    { entry := { key := v.entry.key, value := zeroV }, expiresAt := v.expiresAt,
      negativeCache := true }
  else
    { entry := { key := v.entry.key, value := cloner v.entry.value },
      expiresAt := v.expiresAt, negativeCache := false }

/-- The index computation shared by `resolveBucket` and `resolveBuckets`:
`index := hashKey(key) % len(buckets); if index < 0 { index *= -1 }`.
Go's `%` on `int` is truncated division, i.e. `Int.tmod`. -/
def goBucketIndex (h : Int) (n : Nat) : Int :=
  let index := Int.tmod h (n : Int)
  if index < 0 then index * (-1) else index

/-- `distributedStorage[K, V]`: the bucket slice plus the options it uses. -/
structure DStorage (K V : Type) where
  buckets : List (K → Option (CacheEntry K V))
  hashKey : K → Int
  cloner : V → V
  zeroV : V

/-- `distributedStorage.resolveBucket`, reduced to the bucket index. -/
def DStorage.resolveBucketIdx {K V : Type} (s : DStorage K V) (key : K) : Nat :=
  (goBucketIndex (s.hashKey key) s.buckets.length).toNat

/-- The bucket a key resolves to (`s.buckets[index]`). -/
def DStorage.bucketFor {K V : Type} (s : DStorage K V) (key : K) :
    K → Option (CacheEntry K V) :=
  s.buckets.getD (s.resolveBucketIdx key) (fun _ => none)

/-- `distributedStorage.Get`: look the key up in its bucket; return a clone when
present and `clock.Now().Before(v.ExpiresAt)`, absent otherwise. -/
def DStorage.get {K V : Type} (s : DStorage K V) (now : Int) (key : K) :
    Option (CacheEntry K V) :=
  match s.bucketFor key key with
  | some v => if now < v.expiresAt then some (cloneCacheEntry s.cloner s.zeroV v) else none
  | none => none

/-- `distributedStorage.GetMulti`: one clock reading, then for each key the
lookup in the bucket `resolveBuckets` assigned to it (the same index
computation as `resolveBucket`). -/
def DStorage.getMulti {K V : Type} (s : DStorage K V) (now : Int) (keys : List K) :
    List (Option (CacheEntry K V)) :=
  keys.map fun key =>
    match (s.buckets.getD (goBucketIndex (s.hashKey key) s.buckets.length).toNat
        (fun _ => none)) key with
    | some v => if now < v.expiresAt then some (cloneCacheEntry s.cloner s.zeroV v) else none
    | none => none

/-- `distributedStorage.Set`: store a clone of the entry in its bucket. -/
def DStorage.set {K V : Type} [DecidableEq K] (s : DStorage K V) (e : CacheEntry K V) :
    DStorage K V :=
  let idx := s.resolveBucketIdx e.entry.key
  let b := s.buckets.getD idx (fun _ => none)
  { s with
    buckets := s.buckets.set idx
      (fun k => if k = e.entry.key then some (cloneCacheEntry s.cloner s.zeroV e) else b k) }

/-- `distributedStorage.SetMulti`: store a clone of every non-nil entry in the
entry's bucket, in slice order. -/
def DStorage.setMulti {K V : Type} [DecidableEq K] (s : DStorage K V)
    (entries : List (Option (CacheEntry K V))) : DStorage K V :=
  entries.foldl
    (fun st e? => match e? with
      | some e => st.set e
      | none => st)
    s

/-- `storage[K, V]`: the single-bucket implementation (one embedded bucket). -/
structure SStorage (K V : Type) where
  m : K → Option (CacheEntry K V)
  cloner : V → V
  zeroV : V

/-- `storage.Get`. -/
def SStorage.get {K V : Type} (s : SStorage K V) (now : Int) (key : K) :
    Option (CacheEntry K V) :=
  match s.m key with
  | some v => if now < v.expiresAt then some (cloneCacheEntry s.cloner s.zeroV v) else none
  | none => none

/-- `storage.GetMulti`. -/
def SStorage.getMulti {K V : Type} (s : SStorage K V) (now : Int) (keys : List K) :
    List (Option (CacheEntry K V)) :=
  keys.map fun key =>
    match s.m key with
    | some v => if now < v.expiresAt then some (cloneCacheEntry s.cloner s.zeroV v) else none
    | none => none

/-- `storage.Set`. -/
def SStorage.set {K V : Type} [DecidableEq K] (s : SStorage K V) (e : CacheEntry K V) :
    SStorage K V :=
  { s with m := fun k => if k = e.entry.key then some (cloneCacheEntry s.cloner s.zeroV e) else s.m k }

/-- `storage.SetMulti`. -/
def SStorage.setMulti {K V : Type} [DecidableEq K] (s : SStorage K V)
    (entries : List (Option (CacheEntry K V))) : SStorage K V :=
  entries.foldl
    (fun st e? => match e? with
      | some e => st.set e
      | none => st)
    s

/-- `NewInMemoryStorage`: with `bucketsSize == 1` the single-bucket `storage`
is returned, otherwise a `distributedStorage` over `bucketsSize` fresh
empty buckets. -/
def NewInMemoryStorage {K V : Type} (bucketsSize : Nat) (hashKey : K → Int)
    (cloner : V → V) (zeroV : V) : SStorage K V ⊕ DStorage K V :=
  if bucketsSize = 1 then
    Sum.inl { m := fun _ => none, cloner := cloner, zeroV := zeroV }
  else
    Sum.inr { buckets := List.replicate bucketsSize (fun _ => none),
              hashKey := hashKey, cloner := cloner, zeroV := zeroV }

/-! Operation traces over a storage, for the refinement claim. -/

/-- One public storage operation (the clock reading is part of a get). -/
inductive StorageOp (K V : Type) where
  | get (now : Int) (key : K)
  | getMulti (now : Int) (keys : List K)
  | set (e : CacheEntry K V)
  | setMulti (es : List (Option (CacheEntry K V)))

/-- Observable result of one storage operation. -/
inductive StorageOut (K V : Type) where
  | single (r : Option (CacheEntry K V))
  | multi (rs : List (Option (CacheEntry K V)))
  | done
  deriving DecidableEq

/-- Step of the single-bucket `storage`. -/
def SStorage.step {K V : Type} [DecidableEq K] (s : SStorage K V) :
    StorageOp K V → StorageOut K V × SStorage K V
  | .get now key => (.single (s.get now key), s)
  | .getMulti now keys => (.multi (s.getMulti now keys), s)
  | .set e => (.done, s.set e)
  | .setMulti es => (.done, s.setMulti es)

/-- Step of the sharded `distributedStorage`. -/
def DStorage.step {K V : Type} [DecidableEq K] (s : DStorage K V) :
    StorageOp K V → StorageOut K V × DStorage K V
  | .get now key => (.single (s.get now key), s)
  | .getMulti now keys => (.multi (s.getMulti now keys), s)
  | .set e => (.done, s.set e)
  | .setMulti es => (.done, s.setMulti es)

/-- Run a sequence of operations on the single-bucket `storage`. -/
def SStorage.run {K V : Type} [DecidableEq K] (s : SStorage K V) :
    List (StorageOp K V) → List (StorageOut K V)
  | [] => []
  | op :: rest =>
    let (o, s') := s.step op
    o :: s'.run rest

/-- Run a sequence of operations on the sharded `distributedStorage`. -/
def DStorage.run {K V : Type} [DecidableEq K] (s : DStorage K V) :
    List (StorageOp K V) → List (StorageOut K V)
  | [] => []
  | op :: rest =>
    let (o, s') := s.step op
    o :: s'.run rest

/-! ## singleflightloader: result fan-out (`sendEntry`)

A waitlist channel is identified by an element of an abstract channel type
`Ch`; the loader state keeps, per key, the ordered list of registered
channels.  Delivering to a channel is modelled as the pair of the channel
and the one result written to it before it is closed (`either` with `L` an
error becomes `Except Err`). -/

/-- `SingleFlightLoader.sendEntry`: walk `waitlists[key]` in registration
order; a nil or negative entry is delivered as `ok none` to everyone;
otherwise waiter `0` receives the entry's original value and every later
waiter a value with `cloner.CloneValue` applied; finally the key's
waitlist is truncated to empty.  Returns the deliveries in order and the
updated waitlists. -/
def sendEntry {K V C E : Type} [DecidableEq K] (cloner : V → V)
    (waitlists : K → List C) (key : K) (cacheEntry : Option (CacheEntry K V)) :
    List (C × Except E (Option (Entry K V))) × (K → List C) :=
  let deliveries := (waitlists key).enum.map fun p =>
    (p.2,
      match cacheEntry with
      | none => Except.ok none
      | some e =>
        if e.negativeCache then Except.ok none
        else Except.ok (some
          { key := e.entry.key
            value := if p.1 = 0 then e.entry.value else cloner e.entry.value }))
  (deliveries, fun k => if k = key then [] else waitlists k)

/-! ## LoadingCache façade (`GetOrLoad`, `GetOrLoadMulti`)

The storage lookup result and the loader are passed in as values: the
façade's own logic is the pure translation and splicing below. -/

/-- `LoadingCache.GetOrLoad` as a function of the storage lookup result and
the loader; the second component records whether `Loader.LoadAndStore` was
invoked. -/
def getOrLoad {K V E : Type} (storageRes : Except E (Option (CacheEntry K V)))
    (load : Unit → Except E (Option (Entry K V))) :
    Except E (Option (Entry K V)) × Bool :=
  match storageRes with
  | .error e => (.error e, false)
  | .ok (some cacheEntry) =>
    if cacheEntry.negativeCache then (.ok none, false)
    else (.ok (some cacheEntry.entry), false)
  | .ok none => (load (), true)

/-- The `entries` slice after the first loop of `GetOrLoadMulti`: non-nil
non-negative hits become their `Entry`, negative hits and misses stay nil. -/
def translateHits {K V : Type} (cacheEntries : List (Option (CacheEntry K V))) :
    List (Option (Entry K V)) :=
  cacheEntries.map fun o =>
    match o with
    | some e => if e.negativeCache then none else some e.entry
    | none => none

/-- The `indexes` slice of `GetOrLoadMulti`: positions whose storage result
was nil, in increasing order. -/
def missingIndexes {K V : Type} (cacheEntries : List (Option (CacheEntry K V))) :
    List Nat :=
  (List.range cacheEntries.length).filter fun i => (cacheEntries.getD i none).isNone

/-- The final loop of `GetOrLoadMulti`: `for i, j := range indexes { entries[j] = loaded[i] }`,
consuming index/result pairs in order. -/
def spliceLoaded {K V : Type} :
    List (Option (Entry K V)) → List Nat → List (Option (Entry K V)) →
    List (Option (Entry K V))
  | entries, j :: indexes, l :: loaded => spliceLoaded (entries.set j l) indexes loaded
  | entries, _, _ => entries

/-- `LoadingCache.GetOrLoadMulti` as a function of the storage `GetMulti`
result and the loader; the second component is the key list
`Loader.LoadAndStoreMulti` was invoked with (`none` when it was not
invoked). -/
def getOrLoadMulti {K V E : Type} [Inhabited K]
    (storageRes : Except E (List (Option (CacheEntry K V))))
    (load : List K → Except E (List (Option (Entry K V))))
    (keys : List K) :
    Except E (List (Option (Entry K V))) × Option (List K) :=
  match storageRes with
  | .error e => (.error e, none)
  | .ok cacheEntries =>
    let entries := translateHits cacheEntries
    let indexes := missingIndexes cacheEntries
    if indexes.isEmpty then (.ok entries, none)
    else
      let missing := indexes.map fun j => keys.getD j default
      match load missing with
      | .error e => (.error e, some missing)
      | .ok loaded => (.ok (spliceLoaded entries indexes loaded), some missing)

/-! ## omcindex: `OnMemoryIndex.Refresh`

The snapshot map is `SK → Option (List PK)` (a Go map value), wrapped in
`Option` for the never-initialised nil state.  The outcome of
`DoubleDeferSandwich.Invoke` around `source.GetAll` is one of: a snapshot,
an error, or a goexit interception. -/

/-- Outcome of the guarded `source.GetAll` call inside `Refresh`. -/
inductive FetchAllOutcome (E S P : Type) where
  | ok (m : S → Option (List P))
  | err (e : E)
  | goexit

/-- Reader-visible state of an `OnMemoryIndex`. -/
structure OMIndex (SK PK : Type) where
  m : Option (SK → Option (List PK))
  goexit : Bool

/-- `OnMemoryIndex.Refresh`: on a source error the error is returned and the
state untouched; on success the snapshot is replaced; on goexit the
`goexit` flag is set (the goexit is then re-raised).  Returns the error
result and the state after the call. -/
def OMIndex.refresh {S P E : Type} (st : OMIndex S P)
    (res : FetchAllOutcome E S P) : Option E × OMIndex S P :=
  match res with
  | .err e => (some e, st)
  | .ok m => (none, { st with m := some m })
  | .goexit => (none, { st with goexit := true })

/-! ## Sanity checks of the embedding on concrete inputs -/

example : Uniq [2, 3, 2, 1, 3] = [2, 3, 1] := by decide

example : OrIndexGet [1, 2] [2, 3] = [2, 3, 1] := by decide

example : AndIndexGet [1, 2, 3] [2, 3, 4] = [2, 3] := by decide

example : AndIndexGet [1, 2, 2] [2, 2, 3] = [2] := by decide

example : goBucketIndex (-5) 3 = 2 := by decide

example : goBucketIndex 5 3 = 2 := by decide

/-! ## Theorems -/

/-- **C10** — `RandomizedClock.Now` returns the base clock's time exactly when
the draw is strictly greater than `Percentage` and the base time plus
`Duration` otherwise; with `Percentage = 0` a draw of exactly `0` yields the
skewed time, and with `Percentage = 1` every draw in `[0, 1)` yields the
skewed time. -/
theorem randomizedClock_now_spec (base dur : Int) (p draw : ℚ) :
    (draw > p → randomizedClockNow base dur p draw = base)
    ∧ (draw ≤ p → randomizedClockNow base dur p draw = base + dur)
    ∧ randomizedClockNow base dur 0 0 = base + dur
    ∧ (0 ≤ draw → draw < 1 → randomizedClockNow base dur 1 draw = base + dur) := by
  refine ⟨fun h => ?_, fun h => ?_, ?_, fun h0 h1 => ?_⟩
  · simp [randomizedClockNow, h]
  · simp [randomizedClockNow, not_lt.mpr h]
  · simp [randomizedClockNow]
  · have : ¬ (1 : ℚ) < draw := by linarith
    simp [randomizedClockNow, this]

/-- Witness for C10 at concrete inputs. -/
theorem randomizedClock_now_spec_witness :
    randomizedClockNow 2 7 (1/2) (3/4) = 2 ∧ randomizedClockNow 2 7 (1/2) (1/4) = 9 := by
  constructor
  · exact (randomizedClock_now_spec 2 7 (1/2) (3/4)).1 (by norm_num)
  · exact (randomizedClock_now_spec 2 7 (1/2) (1/4)).2.1 (by norm_num)

/-- **C5** — when the storage lookup returns a (non-expired) entry with
`NegativeCache` set, `GetOrLoad` returns a nil entry and a nil error and the
loader is not invoked. -/
theorem getOrLoad_negative_hit {K V E : Type}
    (storageRes : Except E (Option (CacheEntry K V)))
    (load : Unit → Except E (Option (Entry K V)))
    (cacheEntry : CacheEntry K V)
    (hres : storageRes = .ok (some cacheEntry))
    (hneg : cacheEntry.negativeCache = true) :
    getOrLoad storageRes load = (.ok none, false) := by
  subst hres
  simp [getOrLoad, hneg]

/-- Witness for C5: a concrete negative hit. -/
theorem getOrLoad_negative_hit_witness :
    getOrLoad (K := Nat) (V := Nat) (E := Unit)
        (.ok (some { entry := { key := 2, value := 0 }, expiresAt := 300, negativeCache := true }))
        (fun _ => .ok (some { key := 2, value := 99 })) = (.ok none, false) :=
  getOrLoad_negative_hit _ _ _ rfl rfl

/-- **C7** — when `source.GetAll` fails, `OnMemoryIndex.Refresh` returns that
same error and leaves the state untouched: the snapshot is not replaced and
the `goexit` flag is not set. -/
theorem refresh_error_preserves_state {S P E : Type} (st : OMIndex S P)
    (res : FetchAllOutcome E S P) (e : E) (h : res = .err e) :
    st.refresh res = (some e, st)
    ∧ (st.refresh res).2.m = st.m
    ∧ (st.refresh res).2.goexit = st.goexit := by
  subst h
  simp [OMIndex.refresh]

/-- Witness for C7: a concrete failing refresh. -/
theorem refresh_error_preserves_state_witness :
    OMIndex.refresh (S := Nat) (P := Nat) (E := String)
        { m := none, goexit := false } (.err "boom")
      = (some "boom", { m := none, goexit := false }) :=
  (refresh_error_preserves_state { m := none, goexit := false } (.err "boom") "boom" rfl).1

/-- `GetMulti` performs, per position, exactly the lookup `Get` performs
(same bucket-index computation, same expiry test, same cloning). -/
lemma DStorage.getMulti_eq_map {K V : Type} (s : DStorage K V) (now : Int) (keys : List K) :
    s.getMulti now keys = keys.map fun k => s.get now k := rfl

/-- The bucket index the code computes, `abs(hash % N)` under Go's truncated
division, equals `|hash| mod N`. -/
lemma goBucketIndex_eq (h : Int) (n : Nat) :
    goBucketIndex h n = ((h.natAbs % n : Nat) : Int) := by
  unfold goBucketIndex
  cases h with
  | ofNat m =>
    have ht : Int.tmod (Int.ofNat m) (n : Int) = Int.ofNat (m % n) := rfl
    rw [ht]
    simp only [Int.ofNat_eq_natCast, Int.natAbs_cast]
    generalize m % n = r
    split <;> omega
  | negSucc m =>
    have ht : Int.tmod (Int.negSucc m) (n : Int) = -Int.ofNat ((m + 1) % n) := rfl
    rw [ht]
    simp only [Int.ofNat_eq_natCast, Int.natAbs_negSucc, Nat.succ_eq_add_one]
    generalize (m + 1) % n = r
    split <;> omega

/-- **C2** — for a stored cache entry and any clock reading, `Get` (and
`GetMulti` at every position holding the same key) returns the (cloned)
entry exactly when `now` is strictly before `ExpiresAt`, and is absent
whenever `ExpiresAt ≤ now`, including at the exact expiry instant. -/
theorem storage_get_expiration {K V : Type} (s : DStorage K V) (now : Int) (key : K)
    (v : CacheEntry K V) (h : s.bucketFor key key = some v) :
    (s.get now key
        = if now < v.expiresAt then some (cloneCacheEntry s.cloner s.zeroV v) else none)
    ∧ (v.expiresAt ≤ now → s.get now key = none)
    ∧ ∀ (keys : List K) (i : Nat) (hi : i < keys.length), keys.get ⟨i, hi⟩ = key →
        (s.getMulti now keys).getD i none
          = if now < v.expiresAt then some (cloneCacheEntry s.cloner s.zeroV v) else none := by
  have hget : s.get now key
      = if now < v.expiresAt then some (cloneCacheEntry s.cloner s.zeroV v) else none := by
    unfold DStorage.get
    rw [h]
  refine ⟨hget, fun hle => ?_, fun keys i hi hkey => ?_⟩
  · rw [hget, if_neg (not_lt.mpr hle)]
  · rw [DStorage.getMulti_eq_map]
    have hlen : i < (keys.map fun k => s.get now k).length := by
      simpa using hi
    rw [List.getD_eq_getElem?_getD, List.getElem?_eq_getElem hlen]
    simp only [List.getElem_map, Option.getD_some]
    have : keys[i] = key := by simpa [List.get_eq_getElem] using hkey
    rw [this, hget]

/-- Witness for C2: a one-bucket sharded storage holding key `0` with expiry
`10`; a read at `now = 5` returns the clone, reads at `now = 10` and
`now = 11` return absent. -/
theorem storage_get_expiration_witness :
    DStorage.get (K := Nat) (V := Nat)
        { buckets := [fun k => if k = 0
            then some { entry := { key := 0, value := 7 }, expiresAt := 10, negativeCache := false }
            else none],
          hashKey := fun _ => 0, cloner := id, zeroV := 0 } 10 0 = none := by
  have h := storage_get_expiration (K := Nat) (V := Nat)
    { buckets := [fun k => if k = 0
        then some { entry := { key := 0, value := 7 }, expiresAt := 10, negativeCache := false }
        else none],
      hashKey := fun _ => 0, cloner := id, zeroV := 0 } 10 0
    { entry := { key := 0, value := 7 }, expiresAt := 10, negativeCache := false } rfl
  exact h.2.1 (by decide)

/-- **C6** — the resolved bucket index is `|hash(key)| mod N`, it lies in
`[0, N)` when `N > 0`, and the multi-key operation addresses, per key,
exactly the bucket the single-key operation addresses. -/
theorem resolveBucket_spec {K V : Type} (s : DStorage K V) (key : K)
    (hn : 0 < s.buckets.length) :
    s.resolveBucketIdx key = (s.hashKey key).natAbs % s.buckets.length
    ∧ s.resolveBucketIdx key < s.buckets.length
    ∧ ∀ (now : Int) (keys : List K), s.getMulti now keys = keys.map fun k => s.get now k := by
  have heq : s.resolveBucketIdx key = (s.hashKey key).natAbs % s.buckets.length := by
    unfold DStorage.resolveBucketIdx
    rw [goBucketIndex_eq]
    exact Int.toNat_ofNat _
  refine ⟨heq, ?_, fun now keys => DStorage.getMulti_eq_map s now keys⟩
  rw [heq]
  exact Nat.mod_lt _ hn

/-- Witness for C6: two buckets and a hash of `-5` resolve to bucket
`|-5| mod 2 = 1`. -/
theorem resolveBucket_spec_witness :
    DStorage.resolveBucketIdx (K := Nat) (V := Nat)
        { buckets := [fun _ => none, fun _ => none],
          hashKey := fun _ => -5, cloner := id, zeroV := 0 } 3 = 1 := by
  have h := resolveBucket_spec (K := Nat) (V := Nat)
    { buckets := [fun _ => none, fun _ => none],
      hashKey := fun _ => -5, cloner := id, zeroV := 0 } 3 (by decide)
  exact h.1.trans (by decide)

/-- **C1** (failing-input evaluation) — `AndIndex.Get` with an empty left
underlying result and a right underlying result `[2, 2]` returns `[2]`:
`iterutil.Intersection` counts occurrences across all input sequences, so a
value occurring twice inside one sequence reaches the yield threshold
without appearing in the other sequence at all, contradicting both
`Intersection`'s own documentation ("values that are present in all input
iterators") and the intersection contract. -/
theorem andIndexGet_duplicate_leak :
    AndIndexGet ([] : List Nat) [2, 2] = [2] := by decide

/-! Supporting lemmas about the `Uniq` loop, for the union combinator. -/

lemma mem_uniqGo {α : Type} [DecidableEq α] (seen l : List α) (x : α) :
    x ∈ uniqGo seen l ↔ x ∈ l ∧ x ∉ seen := by
  induction l generalizing seen with
  | nil => simp [uniqGo]
  | cons v rest ih =>
    by_cases hv : v ∈ seen
    · rw [uniqGo, if_pos hv, ih]
      by_cases hxv : x = v
      · subst hxv
        simp [hv]
      · simp [List.mem_cons, hxv]
    · rw [uniqGo, if_neg hv]
      by_cases hxv : x = v
      · subst hxv
        simp [hv]
      · simp only [List.mem_cons, ih, List.mem_cons, hxv, false_or]

lemma nodup_uniqGo {α : Type} [DecidableEq α] (seen l : List α) :
    (uniqGo seen l).Nodup := by
  induction l generalizing seen with
  | nil => simp [uniqGo]
  | cons v rest ih =>
    rw [uniqGo]
    split
    · exact ih seen
    · refine List.nodup_cons.mpr ⟨?_, ih (v :: seen)⟩
      rw [mem_uniqGo]
      rintro ⟨-, hns⟩
      exact hns (List.mem_cons_self _ _)

lemma uniqGo_append {α : Type} [DecidableEq α] (seen a b : List α) :
    uniqGo seen (a ++ b) = uniqGo seen a ++ uniqGo (uniqSeen seen a) b := by
  induction a generalizing seen with
  | nil => simp [uniqGo, uniqSeen]
  | cons v rest ih =>
    by_cases hv : v ∈ seen
    · rw [List.cons_append, uniqGo, if_pos hv, uniqGo, if_pos hv, uniqSeen, if_pos hv, ih]
    · rw [List.cons_append, uniqGo, if_neg hv, uniqGo, if_neg hv, uniqSeen, if_neg hv, ih,
        List.cons_append]

lemma mem_uniqSeen {α : Type} [DecidableEq α] (seen a : List α) (x : α) :
    x ∈ uniqSeen seen a ↔ x ∈ seen ∨ x ∈ a := by
  induction a generalizing seen with
  | nil => simp [uniqSeen]
  | cons v rest ih =>
    by_cases hv : v ∈ seen
    · rw [uniqSeen, if_pos hv, ih]
      by_cases hxv : x = v
      · subst hxv
        simp [hv]
      · simp [List.mem_cons, hxv]
    · rw [uniqSeen, if_neg hv, ih]
      by_cases hxv : x = v
      · subst hxv
        simp
      · simp only [List.mem_cons, hxv, false_or]

/-- **C8** — `OrIndex.Get` returns a duplicate-free list; an element occurs in
it exactly when it occurs in the left or the right underlying result; and
the list is the right-side values (deduplicated) first, followed by the
left-side values not already seen on the right. -/
theorem orIndexGet_spec {PK : Type} [DecidableEq PK] (leftPks rightPks : List PK) :
    (OrIndexGet leftPks rightPks).Nodup
    ∧ (∀ x, x ∈ OrIndexGet leftPks rightPks ↔ x ∈ leftPks ∨ x ∈ rightPks)
    ∧ ∃ w, OrIndexGet leftPks rightPks = Uniq rightPks ++ w
        ∧ ∀ x ∈ w, x ∈ leftPks ∧ x ∉ rightPks := by
  refine ⟨nodup_uniqGo _ _, fun x => ?_, ?_⟩
  · unfold OrIndexGet Uniq
    rw [mem_uniqGo]
    simp only [List.mem_append, List.not_mem_nil, not_false_iff, and_true]
    tauto
  · refine ⟨uniqGo (uniqSeen [] rightPks) leftPks, ?_, ?_⟩
    · unfold OrIndexGet Uniq
      exact uniqGo_append [] rightPks leftPks
    · intro x hx
      rw [mem_uniqGo] at hx
      rcases hx with ⟨h1, h2⟩
      rw [mem_uniqSeen] at h2
      exact ⟨h1, fun hr => h2 (Or.inr hr)⟩

/-- **C3** — delivering a loaded entry to the waiters of a key: the key's
waitlist is emptied (other keys untouched); there is exactly one delivery
per registered channel, in registration order; with a non-nil non-negative
entry waiter `0` receives the original value and every waiter `i > 0` a
value produced by `cloner.CloneValue`; with a nil or negative entry every
waiter receives nil with no error. -/
theorem sendEntry_spec {K V C E : Type} [DecidableEq K] (cloner : V → V)
    (waitlists : K → List C) (key : K) (cacheEntry : Option (CacheEntry K V)) :
    (sendEntry (E := E) cloner waitlists key cacheEntry).2 key = []
    ∧ (∀ k, k ≠ key → (sendEntry (E := E) cloner waitlists key cacheEntry).2 k = waitlists k)
    ∧ ((sendEntry (E := E) cloner waitlists key cacheEntry).1).length
        = (waitlists key).length
    ∧ (∀ e, cacheEntry = some e → e.negativeCache = false →
        ∀ (i : Nat) (hi : i < (waitlists key).length),
          ((sendEntry (E := E) cloner waitlists key cacheEntry).1)[i]?
            = some ((waitlists key).get ⟨i, hi⟩,
                Except.ok (some
                  ⟨e.entry.key, if i = 0 then e.entry.value else cloner e.entry.value⟩)))
    ∧ ((cacheEntry = none ∨ ∃ e, cacheEntry = some e ∧ e.negativeCache = true) →
        ∀ (i : Nat) (hi : i < (waitlists key).length),
          ((sendEntry (E := E) cloner waitlists key cacheEntry).1)[i]?
            = some ((waitlists key).get ⟨i, hi⟩, Except.ok none)) := by
  have hfst : ∀ (i : Nat), (hi : i < (waitlists key).length) →
      ((sendEntry (E := E) cloner waitlists key cacheEntry).1)[i]?
        = some ((waitlists key).get ⟨i, hi⟩,
            match cacheEntry with
            | none => Except.ok none
            | some e =>
              if e.negativeCache then Except.ok none
              else Except.ok (some
                ⟨e.entry.key, if i = 0 then e.entry.value else cloner e.entry.value⟩)) := by
    intro i hi
    simp only [sendEntry, List.getElem?_map, List.getElem?_enum,
      List.getElem?_eq_getElem hi, Option.map_some]
    rfl
  refine ⟨?_, ?_, ?_, ?_, ?_⟩
  · simp [sendEntry]
  · intro k hk
    simp [sendEntry, hk]
  · simp [sendEntry]
  · rintro e rfl hneg i hi
    rw [hfst i hi]
    simp [hneg]
  · rintro (rfl | ⟨e, rfl, hneg⟩) i hi
    · rw [hfst i hi]
    · rw [hfst i hi]
      simp [hneg]

/-- Witness for C3: two waiters on key `0`, a non-negative entry of value `5`
and the cloner `(· + 100)`; waiter `1` receives the cloned value `105`. -/
theorem sendEntry_spec_witness :
    ((sendEntry (K := Nat) (V := Nat) (C := Nat) (E := Unit) (fun v => v + 100)
        (fun k => if k = 0 then [10, 20] else []) 0
        (some { entry := { key := 0, value := 5 }, expiresAt := 50,
                negativeCache := false })).1)[1]?
      = some (20, Except.ok (some { key := 0, value := 105 })) := by
  have h := (sendEntry_spec (K := Nat) (V := Nat) (C := Nat) (E := Unit) (fun v => v + 100)
      (fun k => if k = 0 then [10, 20] else []) 0
      (some { entry := { key := 0, value := 5 }, expiresAt := 50,
              negativeCache := false })).2.2.2.1
      _ rfl rfl 1 (by decide)
  simpa using h

/-! Supporting lemmas for `GetOrLoadMulti`. -/

lemma mem_missingIndexes {K V : Type} (cacheEntries : List (Option (CacheEntry K V)))
    (j : Nat) :
    j ∈ missingIndexes cacheEntries
      ↔ j < cacheEntries.length ∧ cacheEntries.getD j none = none := by
  simp [missingIndexes, List.mem_filter, List.mem_range, Option.isNone_iff_eq_none]

lemma nodup_missingIndexes {K V : Type} (cacheEntries : List (Option (CacheEntry K V))) :
    (missingIndexes cacheEntries).Nodup :=
  (List.nodup_range _).filter _

lemma spliceLoaded_length {K V : Type} (entries : List (Option (Entry K V)))
    (indexes : List Nat) (loaded : List (Option (Entry K V))) :
    (spliceLoaded entries indexes loaded).length = entries.length := by
  induction indexes generalizing entries loaded with
  | nil => cases loaded <;> rfl
  | cons j rest ih =>
    cases loaded with
    | nil => rfl
    | cons l lrest =>
      rw [spliceLoaded, ih, List.length_set]

lemma spliceLoaded_getD_not_mem {K V : Type} (entries : List (Option (Entry K V)))
    (indexes : List Nat) (loaded : List (Option (Entry K V))) (j : Nat)
    (hj : j ∉ indexes) :
    (spliceLoaded entries indexes loaded).getD j none = entries.getD j none := by
  induction indexes generalizing entries loaded with
  | nil => cases loaded <;> rfl
  | cons a rest ih =>
    cases loaded with
    | nil => rfl
    | cons l lrest =>
      rw [spliceLoaded, ih _ _ (fun h => hj (List.mem_cons_of_mem _ h))]
      have haj : a ≠ j := fun h => hj (h ▸ List.mem_cons_self a rest)
      rw [List.getD_eq_getElem?_getD, List.getD_eq_getElem?_getD, List.getElem?_set_ne haj]

lemma spliceLoaded_getD_mem {K V : Type} (entries : List (Option (Entry K V)))
    (indexes : List Nat) (loaded : List (Option (Entry K V))) (r : Nat)
    (hnd : indexes.Nodup) (hr : r < indexes.length) (hrl : r < loaded.length)
    (hlt : ∀ j ∈ indexes, j < entries.length) :
    (spliceLoaded entries indexes loaded).getD (indexes.getD r 0) none
      = loaded.getD r none := by
  induction indexes generalizing entries loaded r with
  | nil => simp at hr
  | cons a rest ih =>
    cases loaded with
    | nil => simp at hrl
    | cons l lrest =>
      rw [spliceLoaded]
      cases r with
      | zero =>
        have hna : a ∉ rest := (List.nodup_cons.mp hnd).1
        rw [List.getD_cons_zero, List.getD_cons_zero, spliceLoaded_getD_not_mem _ _ _ _ hna,
          List.getD_eq_getElem?_getD,
          List.getElem?_set_eq_of_lt _ (hlt a (List.mem_cons_self a rest))]
        rfl
      | succ r' =>
        rw [List.getD_cons_succ, List.getD_cons_succ]
        refine ih _ _ _ (List.nodup_cons.mp hnd).2 (by simpa using hr) (by simpa using hrl)
          fun j hj => ?_
        rw [List.length_set]
        exact hlt j (List.mem_cons_of_mem _ hj)

/-- **C4** — `GetOrLoadMulti`: the output is aligned to the input keys;
positions whose storage lookup hit a non-negative entry carry that entry,
positions that hit a negative entry carry nil; the loader is invoked
exactly with the missed keys in input order (not at all when there is no
miss), and its results are spliced back into the missed positions. -/
theorem getOrLoadMulti_spec {K V E : Type} [Inhabited K]
    (keys : List K) (cacheEntries : List (Option (CacheEntry K V)))
    (load : List K → Except E (List (Option (Entry K V))))
    (hlen : cacheEntries.length = keys.length)
    (hload : ∀ ks, ∃ l, load ks = .ok l ∧ l.length = ks.length) :
    ∃ (out loaded : List (Option (Entry K V))),
      load ((missingIndexes cacheEntries).map fun j => keys.getD j default) = .ok loaded
      ∧ getOrLoadMulti (.ok cacheEntries) load keys
          = (.ok out,
             if (missingIndexes cacheEntries).isEmpty then none
             else some ((missingIndexes cacheEntries).map fun j => keys.getD j default))
      ∧ out.length = keys.length
      ∧ ∀ (i : Nat), i < keys.length →
          (∀ e, cacheEntries.getD i none = some e →
              out.getD i none = if e.negativeCache then none else some e.entry)
          ∧ (cacheEntries.getD i none = none →
              out.getD i none
                = loaded.getD ((missingIndexes cacheEntries).indexOf i) none) := by
  obtain ⟨loaded, hld, hldlen⟩ :=
    hload ((missingIndexes cacheEntries).map fun j => keys.getD j default)
  have htlen : (translateHits cacheEntries).length = keys.length := by
    simpa [translateHits] using hlen
  have hhit : ∀ (i : Nat), i < keys.length → ∀ e, cacheEntries.getD i none = some e →
      (translateHits cacheEntries).getD i none
        = if e.negativeCache then none else some e.entry := by
    intro i hi e he
    have hic : i < cacheEntries.length := hlen ▸ hi
    have hce : cacheEntries[i] = some e := by
      rw [List.getD_eq_getElem?_getD, List.getElem?_eq_getElem hic] at he
      simpa using he
    rw [List.getD_eq_getElem?_getD]
    simp only [translateHits, List.getElem?_map, List.getElem?_eq_getElem hic, hce]
    rfl
  by_cases hempty : (missingIndexes cacheEntries).isEmpty
  · refine ⟨translateHits cacheEntries, loaded, hld, ?_, htlen, fun i hi => ⟨hhit i hi, ?_⟩⟩
    · simp [getOrLoadMulti, hempty]
    · intro hnone
      exfalso
      have : i ∈ missingIndexes cacheEntries :=
        (mem_missingIndexes _ _).mpr ⟨hlen ▸ hi, hnone⟩
      rw [List.isEmpty_iff] at hempty
      simp [hempty] at this
  · refine ⟨spliceLoaded (translateHits cacheEntries) (missingIndexes cacheEntries) loaded,
      loaded, hld, ?_, ?_, fun i hi => ⟨?_, ?_⟩⟩
    · have hld' := hld
      simp only [List.getD_eq_getElem?_getD] at hld'
      simp [getOrLoadMulti, hempty, hld']
    · rw [spliceLoaded_length, htlen]
    · intro e he
      have hmem : i ∉ missingIndexes cacheEntries := by
        rw [mem_missingIndexes]
        rintro ⟨-, hn⟩
        rw [he] at hn
        cases hn
      rw [spliceLoaded_getD_not_mem _ _ _ _ hmem]
      exact hhit i hi e he
    · intro hnone
      have hmem : i ∈ missingIndexes cacheEntries :=
        (mem_missingIndexes _ _).mpr ⟨hlen ▸ hi, hnone⟩
      have hro : (missingIndexes cacheEntries).indexOf i
          < (missingIndexes cacheEntries).length :=
        List.indexOf_lt_length.mpr hmem
      have hgetr : (missingIndexes cacheEntries).getD
          ((missingIndexes cacheEntries).indexOf i) 0 = i := by
        rw [List.getD_eq_getElem?_getD, List.getElem?_eq_getElem hro]
        simp [List.getElem_indexOf]

      have hrl : (missingIndexes cacheEntries).indexOf i < loaded.length := by
        rw [hldlen, List.length_map]
        exact hro
      have hlt : ∀ j ∈ missingIndexes cacheEntries,
          j < (translateHits cacheEntries).length := by
        intro j hj
        rw [htlen, ← hlen]
        exact ((mem_missingIndexes _ _).mp hj).1
      have hmain := spliceLoaded_getD_mem (translateHits cacheEntries)
        (missingIndexes cacheEntries) loaded ((missingIndexes cacheEntries).indexOf i)
        (nodup_missingIndexes _) hro hrl hlt
      rw [hgetr] at hmain
      exact hmain

/-- Witness for C4: keys `[1,2,3]`, a non-negative hit at position 0, a miss
at position 1 and a negative hit at position 2; the loader is invoked with
exactly `[2]`. -/
theorem getOrLoadMulti_spec_witness :
    (getOrLoadMulti (K := Nat) (V := Nat) (E := Unit)
        (.ok [some ⟨⟨1, 10⟩, 100, false⟩, none, some ⟨⟨3, 0⟩, 100, true⟩])
        (fun ks => .ok (ks.map fun k => some ⟨k, k + 50⟩)) [1, 2, 3]).2 = some [2] := by
  obtain ⟨out, loaded, hld, heq, hl, hp⟩ := getOrLoadMulti_spec (K := Nat) (V := Nat)
    (E := Unit) [1, 2, 3] [some ⟨⟨1, 10⟩, 100, false⟩, none, some ⟨⟨3, 0⟩, 100, true⟩]
    (fun ks => .ok (ks.map fun k => some ⟨k, k + 50⟩)) rfl
    (fun ks => ⟨ks.map fun k => some ⟨k, k + 50⟩, rfl, by simp⟩)
  rw [heq]
  rfl

/-! Supporting lemmas for the single-bucket/sharded refinement. -/

/-- The simulation between a single-bucket `storage` and a one-bucket
`distributedStorage`: the one bucket holds the same map and the options agree. -/
def StorageSim {K V : Type} (s : SStorage K V) (d : DStorage K V) : Prop :=
  d.buckets = [s.m] ∧ d.cloner = s.cloner ∧ d.zeroV = s.zeroV

lemma resolveBucketIdx_one {K V : Type} (d : DStorage K V) (h1 : d.buckets.length = 1)
    (key : K) : d.resolveBucketIdx key = 0 := by
  unfold DStorage.resolveBucketIdx
  rw [goBucketIndex_eq, h1]
  simp

lemma bucketFor_singleton {K V : Type} (d : DStorage K V)
    (m : K → Option (CacheEntry K V)) (hb : d.buckets = [m]) (key : K) :
    d.bucketFor key = m := by
  unfold DStorage.bucketFor
  rw [resolveBucketIdx_one d (by rw [hb]; rfl), hb]
  rfl

lemma dget_singleton {K V : Type} (s : SStorage K V) (d : DStorage K V)
    (h : StorageSim s d) (now : Int) (key : K) : d.get now key = s.get now key := by
  obtain ⟨hb, hc, hz⟩ := h
  unfold DStorage.get SStorage.get
  rw [bucketFor_singleton d s.m hb, hc, hz]

lemma dset_buckets {K V : Type} [DecidableEq K] (d : DStorage K V) (e : CacheEntry K V) :
    (d.set e).buckets = d.buckets.set (d.resolveBucketIdx e.entry.key)
      (fun k => if k = e.entry.key then some (cloneCacheEntry d.cloner d.zeroV e)
                else d.bucketFor e.entry.key k) := rfl

lemma dset_sim {K V : Type} [DecidableEq K] (s : SStorage K V) (d : DStorage K V)
    (h : StorageSim s d) (e : CacheEntry K V) : StorageSim (s.set e) (d.set e) := by
  obtain ⟨hb, hc, hz⟩ := h
  have h1 : d.buckets.length = 1 := by rw [hb]; rfl
  refine ⟨?_, hc, hz⟩
  rw [dset_buckets, resolveBucketIdx_one d h1, bucketFor_singleton d s.m hb, hb, hc, hz]
  rfl

lemma dsetMulti_sim {K V : Type} [DecidableEq K] (s : SStorage K V) (d : DStorage K V)
    (h : StorageSim s d) (entries : List (Option (CacheEntry K V))) :
    StorageSim (s.setMulti entries) (d.setMulti entries) := by
  induction entries generalizing s d with
  | nil => exact h
  | cons e? rest ih =>
    cases e? with
    | none => exact ih _ _ h
    | some e => exact ih _ _ (dset_sim s d h e)

lemma step_sim {K V : Type} [DecidableEq K] (s : SStorage K V) (d : DStorage K V)
    (h : StorageSim s d) (op : StorageOp K V) :
    (s.step op).1 = (d.step op).1 ∧ StorageSim (s.step op).2 (d.step op).2 := by
  cases op with
  | get now key =>
    exact ⟨congrArg StorageOut.single (dget_singleton s d h now key).symm, h⟩
  | getMulti now keys =>
    refine ⟨congrArg StorageOut.multi ?_, h⟩
    show keys.map (fun k => s.get now k) = d.getMulti now keys
    rw [DStorage.getMulti_eq_map]
    exact List.map_congr_left fun k _ => (dget_singleton s d h now k).symm
  | set e => exact ⟨rfl, dset_sim s d h e⟩
  | setMulti es => exact ⟨rfl, dsetMulti_sim s d h es⟩

lemma run_sim {K V : Type} [DecidableEq K] (s : SStorage K V) (d : DStorage K V)
    (h : StorageSim s d) (ops : List (StorageOp K V)) : s.run ops = d.run ops := by
  induction ops generalizing s d with
  | nil => rfl
  | cons op rest ih =>
    obtain ⟨hout, hsim⟩ := step_sim s d h op
    show (s.step op).1 :: (s.step op).2.run rest = (d.step op).1 :: (d.step op).2.run rest
    rw [hout, ih _ _ hsim]

/-- **C9** — `NewInMemoryStorage` with `bucketsSize = 1` returns the distinct
single-bucket implementation (`storage`), and that implementation produces,
for every sequence of `Get`/`GetMulti`/`Set`/`SetMulti` operations, exactly
the results the sharded `distributedStorage` over one bucket would produce. -/
theorem newInMemoryStorage_one_bucket {K V : Type} [DecidableEq K] (hashKey : K → Int)
    (cloner : V → V) (zeroV : V) :
    NewInMemoryStorage (K := K) (V := V) 1 hashKey cloner zeroV
        = Sum.inl { m := fun _ => none, cloner := cloner, zeroV := zeroV }
    ∧ ∀ ops : List (StorageOp K V),
        SStorage.run { m := fun _ => none, cloner := cloner, zeroV := zeroV } ops
          = DStorage.run
              { buckets := List.replicate 1 (fun _ => none), hashKey := hashKey,
                cloner := cloner, zeroV := zeroV } ops := by
  constructor
  · rw [NewInMemoryStorage, if_pos rfl]
  · intro ops
    exact run_sim _ _ ⟨rfl, rfl, rfl⟩ ops

end LoadingCache
